import Mathlib

/-!
# Verification of the RSA-OAEP core (`cipher/rsa.py`)

A shallow embedding of the RSA public-key cryptosystem with OAEP padding
found in `cipher/rsa.py`, together with theorems settling the claims of
the specification against it.

Modelling conventions:
* Python byte strings are `List Nat` with every element `< 256`.
* Python big integers are `Nat` (negative intermediate values of the
  extended Euclidean algorithm use `Int`).
* `hashlib.sha256` is an external library, modelled as an abstract
  `HashFn`: an arbitrary function from byte strings to 32-byte digests.
* `os.urandom` draws are passed in explicitly (seed lists / witness
  bytes), quantified over in the theorems.
* Python exceptions are modelled by `Except Err`; each distinct `raise`
  site gets its own `Err` constructor.
-/

namespace RSA

/-- One constructor per `raise` site in `cipher/rsa.py`, plus the
`OverflowError` that `int.to_bytes` raises on out-of-range values and the
`ValueError` that `range` raises on a zero step. -/
inductive Err where
  | noInverse        -- "Modular inverse does not exist"
  | maskTooLong      -- "Mask too long"
  | counterOverflow  -- counter.to_bytes(4) overflow inside _mgf1
  | msgTooLong       -- "Message too long for OAEP encoding"
  | invalidLength    -- "Decoding error: invalid encoded message length"
  | labelMismatch    -- "Decoding error: label hash mismatch"
  | invalidPadding   -- "Decoding error: invalid padding"
  | noSeparator      -- "Decoding error: no 0x01 separator found"
  | invalidFirstByte -- "Decoding error: invalid first byte"
  | emptyMessage     -- "Message cannot be empty"
  | tooShort         -- "Invalid ciphertext: too short"
  | incorrectLength  -- "Invalid ciphertext: incorrect length"
  | overflow         -- OverflowError from int.to_bytes
  | rangeStepZero    -- ValueError from range(0, len, 0)
  deriving DecidableEq, Repr

/-- Exception propagation (`Except.bind`, written out so that proofs can
unfold it with `simp [ebind]`). -/
def ebind : Except Err α → (α → Except Err β) → Except Err β
  | .error e, _ => .error e
  | .ok a, f => f a

@[simp] theorem ebind_ok (a : α) (f : α → Except Err β) : ebind (.ok a) f = f a := rfl

@[simp] theorem ebind_error (e : Err) (f : α → Except Err β) :
    ebind (Except.error e) f = .error e := rfl

/-! ## Big-endian byte/integer conversions (`int.from_bytes` / `int.to_bytes`) -/

/-- `int.from_bytes(l, 'big')`. -/
def fromBytesBE (l : List Nat) : Nat := l.foldl (fun acc b => acc * 256 + b) 0

/-- The byte list produced by `n.to_bytes(len, 'big')` (total version). -/
def natToBytesBE : Nat → Nat → List Nat
  | 0, _ => []
  | len + 1, n => natToBytesBE len (n / 256) ++ [n % 256]

/-- `n.to_bytes(len, 'big')`: raises `OverflowError` when `n` does not fit. -/
def toBytesBE (len n : Nat) : Except Err (List Nat) :=
  if n < 256 ^ len then .ok (natToBytesBE len n) else .error .overflow

theorem fromBytesBE_nil : fromBytesBE [] = 0 := rfl

theorem foldl_byte_acc (l : List Nat) (a : Nat) :
    l.foldl (fun acc b => acc * 256 + b) a = a * 256 ^ l.length + fromBytesBE l := by
  induction l generalizing a with
  | nil => simp [fromBytesBE]
  | cons x xs ih =>
    simp only [List.foldl_cons, List.length_cons, fromBytesBE]
    rw [ih (a * 256 + x), ih (0 * 256 + x)]
    ring

theorem fromBytesBE_append_singleton (xs : List Nat) (b : Nat) :
    fromBytesBE (xs ++ [b]) = fromBytesBE xs * 256 + b := by
  simp [fromBytesBE, List.foldl_append]

theorem fromBytesBE_lt (l : List Nat) (h : ∀ b ∈ l, b < 256) :
    fromBytesBE l < 256 ^ l.length := by
  induction l using List.reverseRecOn with
  | nil => simp [fromBytesBE]
  | append_singleton xs b ih =>
    rw [fromBytesBE_append_singleton]
    have hb : b < 256 := h b (by simp)
    have hxs : fromBytesBE xs < 256 ^ xs.length := ih fun c hc => h c (by simp [hc])
    calc fromBytesBE xs * 256 + b < (fromBytesBE xs + 1) * 256 := by omega
    _ ≤ 256 ^ xs.length * 256 := by
        have : fromBytesBE xs + 1 ≤ 256 ^ xs.length := hxs
        exact Nat.mul_le_mul_right _ this
    _ = 256 ^ (xs ++ [b]).length := by
        simp [pow_succ]

theorem natToBytesBE_length (len n : Nat) : (natToBytesBE len n).length = len := by
  induction len generalizing n with
  | zero => rfl
  | succ l ih => simp [natToBytesBE, ih]

theorem natToBytesBE_mem_lt (len n : Nat) : ∀ b ∈ natToBytesBE len n, b < 256 := by
  induction len generalizing n with
  | zero => simp [natToBytesBE]
  | succ l ih =>
    intro b hb
    simp only [natToBytesBE, List.mem_append, List.mem_singleton] at hb
    rcases hb with hb | hb
    · exact ih _ b hb
    · subst hb; exact Nat.mod_lt _ (by norm_num)

theorem fromBytesBE_natToBytesBE (len n : Nat) (h : n < 256 ^ len) :
    fromBytesBE (natToBytesBE len n) = n := by
  induction len generalizing n with
  | zero => simp [pow_zero] at h; simp [natToBytesBE, fromBytesBE, h]
  | succ l ih =>
    rw [natToBytesBE, fromBytesBE_append_singleton, ih]
    · omega
    · have h2 : n < 256 * 256 ^ l := by
        rw [← pow_succ']; exact h
      exact Nat.div_lt_of_lt_mul h2

theorem natToBytesBE_fromBytesBE (l : List Nat) (h : ∀ b ∈ l, b < 256) :
    natToBytesBE l.length (fromBytesBE l) = l := by
  induction l using List.reverseRecOn with
  | nil => rfl
  | append_singleton xs b ih =>
    have hb : b < 256 := h b (by simp)
    rw [fromBytesBE_append_singleton]
    have hlen : (xs ++ [b]).length = xs.length + 1 := by simp
    rw [hlen, natToBytesBE]
    have hdiv : (fromBytesBE xs * 256 + b) / 256 = fromBytesBE xs := by
      rw [Nat.mul_comm, Nat.mul_add_div (by norm_num)]
      omega
    have hmod : (fromBytesBE xs * 256 + b) % 256 = b := by omega
    rw [hdiv, hmod, ih fun c hc => h c (by simp [hc])]

/-! ## `_xor_bytes` -/

/-- `_xor_bytes`: XOR of two byte strings; like Python's `zip`, truncates to
the shorter input. -/
def xorBytes (a b : List Nat) : List Nat := List.zipWith Nat.xor a b

theorem xorBytes_length (a b : List Nat) :
    (xorBytes a b).length = min a.length b.length := by
  simp [xorBytes]

theorem xorBytes_xorBytes_right (a b : List Nat) (h : a.length = b.length) :
    xorBytes (xorBytes a b) b = a := by
  induction a generalizing b with
  | nil => simp [xorBytes]
  | cons x xs ih =>
    cases b with
    | nil => simp at h
    | cons y ys =>
      simp only [xorBytes, List.zipWith_cons_cons, List.cons.injEq]
      constructor
      · exact Nat.xor_cancel_right y x
      · exact ih ys (by simpa using h)

theorem xorBytes_mem_lt (a b : List Nat) (ha : ∀ x ∈ a, x < 256)
    (hb : ∀ x ∈ b, x < 256) : ∀ x ∈ xorBytes a b, x < 256 := by
  induction a generalizing b with
  | nil => simp [xorBytes]
  | cons x xs ih =>
    cases b with
    | nil => simp [xorBytes]
    | cons y ys =>
      intro z hz
      simp only [xorBytes, List.zipWith_cons_cons, List.mem_cons] at hz
      rcases hz with hz | hz
      · subst hz
        have : x ^^^ y < 2 ^ 8 :=
          Nat.xor_lt_two_pow (ha x (by simp)) (hb y (by simp))
        simpa using this
      · exact ih ys (fun c hc => ha c (by simp [hc])) (fun c hc => hb c (by simp [hc])) z hz

/-! ## The hash model (`hashlib.sha256`)

`hashlib` is an external library: we model a hash function abstractly as
any function from byte strings to 32-byte strings (SHA-256's digest size),
which is all `cipher/rsa.py` relies on. -/

/-- Abstract model of `hashlib.sha256(data).digest()`: an arbitrary function
returning 32 valid bytes. -/
structure HashFn where
  f : List Nat → List Nat
  len_eq : ∀ l, (f l).length = 32
  mem_lt : ∀ l, ∀ b ∈ f l, b < 256

/-- A concrete instance of the hash model (used to evaluate the embedding on
concrete inputs). -/
def constHash : HashFn where
  f := fun _ => List.replicate 32 0
  len_eq := fun _ => List.length_replicate 32 0
  mem_lt := fun _ b hb => by
    have := List.eq_of_mem_replicate hb
    omega

/-! ## `_mgf1` -/

/-- The `while len(T) < length` loop of `_mgf1`: `T` is the accumulated
concatenation, `counter` the next counter value; `counter.to_bytes(4, 'big')`
raises when the counter no longer fits in four bytes. -/
def mgf1Loop (H : HashFn) (seed : List Nat) (len : Nat) (T : List Nat)
    (counter : Nat) : Except Err (List Nat) :=
  if h : T.length < len then
    if counter < 2 ^ 32 then
      mgf1Loop H seed len (T ++ H.f (seed ++ natToBytesBE 4 counter)) (counter + 1)
    else .error .counterOverflow
  else .ok (T.take len)
termination_by len - T.length
decreasing_by
  have h32 := H.len_eq (seed ++ natToBytesBE 4 counter)
  simp only [List.length_append]
  omega

/-- `_mgf1(seed, length)` with SHA-256 (`h_len = 32`). -/
def mgf1 (H : HashFn) (seed : List Nat) (len : Nat) : Except Err (List Nat) :=
  if len > 2 ^ 32 * 32 then .error .maskTooLong
  else mgf1Loop H seed len [] 0

/-- The concatenation `hash(seed ‖ C0) ‖ hash(seed ‖ C1) ‖ …` of the first
`n` counter blocks (`Ci` = 4-byte big-endian counter). -/
def mgfConcat (H : HashFn) (seed : List Nat) (n : Nat) : List Nat :=
  (List.range n).flatMap fun i => H.f (seed ++ natToBytesBE 4 i)

theorem mgfConcat_succ (H : HashFn) (seed : List Nat) (n : Nat) :
    mgfConcat H seed (n + 1) = mgfConcat H seed n ++ H.f (seed ++ natToBytesBE 4 n) := by
  simp [mgfConcat, List.range_succ]

theorem mgfConcat_length (H : HashFn) (seed : List Nat) (n : Nat) :
    (mgfConcat H seed n).length = 32 * n := by
  induction n with
  | zero => rfl
  | succ m ih =>
    rw [mgfConcat_succ, List.length_append, ih, H.len_eq]
    ring

theorem mgfConcat_take (H : HashFn) (seed : List Nat) {len c N : Nat}
    (h1 : len ≤ 32 * c) (h2 : c ≤ N) :
    (mgfConcat H seed N).take len = (mgfConcat H seed c).take len := by
  induction N, h2 using Nat.le_induction with
  | base => rfl
  | succ N hN ih =>
    rw [mgfConcat_succ, List.take_append_of_le_length, ih]
    rw [mgfConcat_length]
    omega

theorem mgf1Loop_eq (H : HashFn) (seed : List Nat) (len : Nat) (N : Nat)
    (hN : len ≤ 32 * N) (hlen : len ≤ 2 ^ 32 * 32) :
    ∀ c, c ≤ N →
      mgf1Loop H seed len (mgfConcat H seed c) c = .ok ((mgfConcat H seed N).take len) := by
  have main : ∀ fuel c, len - 32 * c = fuel → c ≤ N →
      mgf1Loop H seed len (mgfConcat H seed c) c = .ok ((mgfConcat H seed N).take len) := by
    intro fuel
    induction fuel using Nat.strong_induction_on with
    | _ fuel ih =>
      intro c hfe hcN
      rw [mgf1Loop]
      by_cases hc : (mgfConcat H seed c).length < len
      · rw [dif_pos hc]
        rw [mgfConcat_length] at hc
        have hcount : c < 2 ^ 32 := by omega
        rw [if_pos hcount, ← mgfConcat_succ]
        have hc1N : c + 1 ≤ N := by omega
        exact ih (len - 32 * (c + 1)) (by omega) (c + 1) rfl hc1N
      · rw [dif_neg hc]
        rw [mgfConcat_length] at hc
        rw [mgfConcat_take H seed (by omega : len ≤ 32 * c) hcN]
  exact fun c => main (len - 32 * c) c rfl

/-- `_mgf1` returns exactly the first `len` bytes of the counter-block
concatenation, for any block count `N` covering `len`. -/
theorem mgf1_eq (H : HashFn) (seed : List Nat) (len N : Nat)
    (hN : len ≤ 32 * N) (hlen : len ≤ 2 ^ 32 * 32) :
    mgf1 H seed len = .ok ((mgfConcat H seed N).take len) := by
  rw [mgf1, if_neg (by omega)]
  have := mgf1Loop_eq H seed len N hN hlen 0 (Nat.zero_le N)
  simpa [mgfConcat] using this

/-- `_mgf1` succeeds with an output of exactly the requested length whenever
the request is within the `2^32 · h` bound. -/
theorem mgf1_ok (H : HashFn) (seed : List Nat) (len : Nat)
    (hlen : len ≤ 2 ^ 32 * 32) :
    ∃ t, mgf1 H seed len = .ok t ∧ t.length = len ∧ ∀ b ∈ t, b < 256 := by
  refine ⟨(mgfConcat H seed len).take len, mgf1_eq H seed len len (by omega) hlen, ?_, ?_⟩
  · rw [List.length_take, mgfConcat_length]
    omega
  · intro b hb
    have hmem := List.mem_of_mem_take hb
    simp only [mgfConcat, List.mem_flatMap] at hmem
    obtain ⟨i, _, hbi⟩ := hmem
    exact H.mem_lt _ b hbi

/-! ## `_is_prime` (Miller–Rabin) -/

/-- The witness base drawn in one round: `a = 2 + os.urandom(1)[0] % (n - 3)`,
where `u` is the single uniform random byte consumed. -/
def mrBase (n u : Nat) : Nat := 2 + u % (n - 3)

/-- The `while d % 2 == 0` loop writing `n - 1 = 2^r * d`: given the running
value, returns `(r, d)` with `d` odd. -/
def split2 (d : Nat) : Nat × Nat :=
  if h : d % 2 = 0 ∧ d ≠ 0 then
    let p := split2 (d / 2)
    (p.1 + 1, p.2)
  else (0, d)
termination_by d
decreasing_by omega

/-- The `for _ in range(r - 1)` squaring loop: squares `x` up to `t` times
looking for `n - 1`; `true` means the round passes. -/
def mrSquare (n x : Nat) : Nat → Bool
  | 0 => false
  | t + 1 =>
    let x2 := x * x % n
    if x2 = n - 1 then true else mrSquare n x2 t

/-- One witness round of `_is_prime` with random byte `u`. -/
def mrRound (n d r u : Nat) : Bool :=
  let a := mrBase n u
  let x := a ^ d % n
  if x = 1 ∨ x = n - 1 then true else mrSquare n x (r - 1)

/-- `_is_prime(n, k)` where `us` is the list of random bytes consumed, one
per witness round (`k = us.length`, default 5). -/
def isPrime (n : Nat) (us : List Nat) : Bool :=
  if n < 2 then false
  else if n = 2 ∨ n = 3 then true
  else if n % 2 = 0 then false
  else
    let rd := split2 (n - 1)
    us.all fun u => mrRound n rd.2 rd.1 u

/-! ## `_generate_prime` -/

/-- One candidate of `_generate_prime`: `bit_size // 8` random bytes with the
most-significant and least-significant bits forced
(`num |= (1 << (bit_size - 1)) | 1`). -/
def primeCandidate (bitSize : Nat) (chunk : List Nat) : Nat :=
  fromBytesBE chunk ||| ((1 <<< (bitSize - 1)) ||| 1)

/-- `_generate_prime(bit_size)`: each attempt consumes `bit_size // 8` random
bytes (`chunk`) and the Miller–Rabin witness bytes (`ws`); the first candidate
passing `_is_prime` is returned. `none` models running out of the supplied
randomness (the Python loop would keep drawing). -/
def generatePrime (bitSize : Nat) : List (List Nat × List Nat) → Option Nat
  | [] => none
  | (chunk, ws) :: rest =>
    let num := primeCandidate bitSize chunk
    if isPrime num ws then some num else generatePrime bitSize rest

/-! ## `_extended_gcd`, `_mod_inverse`, `generate_keypair` -/

/-- `_extended_gcd(a, b)`: returns `(g, x, y)` with `a*x + b*y = g`. -/
def extendedGcd (a b : Nat) : Nat × Int × Int :=
  if h : a = 0 then (b, 0, 1)
  else
    let r := extendedGcd (b % a) a
    (r.1, r.2.2 - (b / a : Nat) * r.2.1, r.2.1)
termination_by a
decreasing_by exact Nat.mod_lt _ (Nat.pos_of_ne_zero h)

/-- `_mod_inverse(a, m)`: raises when `gcd(a, m) ≠ 1`, otherwise returns
`(x % m + m) % m` for the Bézout coefficient `x`. -/
def modInverse (a m : Nat) : Except Err Nat :=
  let r := extendedGcd a m
  if r.1 ≠ 1 then .error .noInverse
  else .ok ((r.2.1 % (m : Int) + m) % m).toNat

/-- The `while p == q` loop of `generate_keypair`: the first fresh prime
candidate different from `p`. -/
def pickQ (p : Nat) : List Nat → Option Nat
  | [] => none
  | q :: rest => if q = p then pickQ p rest else some q

/-- The keypair construction of `generate_keypair` once `p` and `q` are
fixed: `n = p*q`, `phi = (p-1)*(q-1)`, `e = 65537`, `d = e⁻¹ mod phi`. -/
def keypairFrom (p q : Nat) : Except Err ((Nat × Nat) × (Nat × Nat)) :=
  let n := p * q
  let phi := (p - 1) * (q - 1)
  ebind (modInverse 65537 phi) fun d => .ok ((65537, n), (d, n))

/-- `generate_keypair` with the generated primes supplied: `p` is the first
prime, `qs` the stream of candidates for `q` (resampled while equal to `p`). -/
def generateKeypair (p : Nat) (qs : List Nat) :
    Option (Except Err ((Nat × Nat) × (Nat × Nat))) :=
  (pickQ p qs).map fun q => keypairFrom p q

/-! ## `_oaep_encode` / `_oaep_decode` -/

/-- `_oaep_encode(message, k, label)` with the random 32-byte `seed`
(`os.urandom(h_len)`) passed explicitly. -/
def oaepEncode (H : HashFn) (seed message : List Nat) (k : Nat)
    (label : List Nat) : Except Err (List Nat) :=
  if (message.length : Int) > (k : Int) - 2 * 32 - 2 then .error .msgTooLong
  else
    let lhash := H.f label
    let psLen := k - message.length - 2 * 32 - 2
    let ps := List.replicate psLen 0
    let db := lhash ++ ps ++ [1] ++ message
    ebind (mgf1 H seed (k - 32 - 1)) fun dbMask =>
    let maskedDB := xorBytes db dbMask
    ebind (mgf1 H maskedDB 32) fun seedMask =>
    let maskedSeed := xorBytes seed seedMask
    .ok (0 :: (maskedSeed ++ maskedDB))

/-- The `for i in range(h_len, len(db))` separator scan of `_oaep_decode`,
applied to `db.drop 32` with running index `i`: the first nonzero byte must
be exactly `0x01`; its index is returned. -/
def findSep : List Nat → Nat → Except Err Nat
  | [], _ => .error .noSeparator
  | b :: rest, i =>
    if b = 1 then .ok i
    else if b ≠ 0 then .error .invalidPadding
    else findSep rest (i + 1)

/-- The mask-reversal steps of `_oaep_decode`: recovers `DB` from the
encoded block. -/
def oaepRecoverDB (H : HashFn) (encoded : List Nat) (k : Nat) :
    Except Err (List Nat) :=
  let maskedSeed := (encoded.drop 1).take 32
  let maskedDB := encoded.drop 33
  ebind (mgf1 H maskedDB 32) fun seedMask =>
  let seed := xorBytes maskedSeed seedMask
  ebind (mgf1 H seed (k - 32 - 1)) fun dbMask =>
  .ok (xorBytes maskedDB dbMask)

/-- `_oaep_decode(encoded, k, label)`. -/
def oaepDecode (H : HashFn) (encoded : List Nat) (k : Nat)
    (label : List Nat) : Except Err (List Nat) :=
  if encoded.length ≠ k ∨ k < 2 * 32 + 2 then .error .invalidLength
  else
    ebind (oaepRecoverDB H encoded k) fun db =>
    if H.f label ≠ db.take 32 then .error .labelMismatch
    else
      match findSep (db.drop 32) 32 with
      | .error e => .error e
      | .ok sep =>
        if encoded.headI ≠ 0 then .error .invalidFirstByte
        else .ok (db.drop (sep + 1))

/-! ## `encrypt` / `decrypt` -/

/-- `k = (n.bit_length() + 7) // 8`; `Nat.size` is Python's `bit_length`. -/
def byteLen (n : Nat) : Nat := (Nat.size n + 7) / 8

/-- The block split `message[i:i+max_block_size]` for `i` in
`range(0, len(message), sz)` with a positive step `sz`. -/
def chunkList (sz : Nat) : List Nat → List (List Nat)
  | [] => []
  | x :: xs =>
    if h : sz = 0 then []
    else (x :: xs).take sz :: chunkList sz ((x :: xs).drop sz)
termination_by l => l.length
decreasing_by simp; omega

/-- The per-block loop of `encrypt`: OAEP-encode with the block's seed,
RSA-exponentiate, emit `k` fixed bytes; `i` indexes the seed stream. -/
def encryptBlocks (H : HashFn) (seeds : Nat → List Nat) (e n k : Nat) :
    List (List Nat) → Nat → Except Err (List Nat)
  | [], _ => .ok []
  | block :: rest, i =>
    ebind (oaepEncode H (seeds i) block k []) fun em =>
    let m := fromBytesBE em
    let c := m ^ e % n
    ebind (toBytesBE k c) fun cb =>
    ebind (encryptBlocks H seeds e n k rest (i + 1)) fun tail =>
    .ok (cb ++ tail)

/-- `encrypt(message, public_key)` with the per-block OAEP seeds passed
explicitly. A non-positive `max_block_size` reproduces Python's `range`
semantics: step `0` raises `ValueError`, a negative step yields no blocks. -/
def encrypt (H : HashFn) (seeds : Nat → List Nat) (message : List Nat)
    (pub : Nat × Nat) : Except Err (List Nat) :=
  let e := pub.1
  let n := pub.2
  let k := byteLen n
  let maxBlock : Int := (k : Int) - 2 * 32 - 2
  if message.length = 0 then .error .emptyMessage
  else if maxBlock = 0 then .error .rangeStepZero
  else
    let blocks := if maxBlock < 0 then [] else chunkList maxBlock.toNat message
    ebind (encryptBlocks H seeds e n k blocks 0) fun body =>
    ebind (toBytesBE 4 blocks.length) fun hdr =>
    .ok (hdr ++ body)

/-- The per-block loop of `decrypt`: take `k` bytes, RSA-exponentiate with
`d`, re-encode to `k` bytes, OAEP-decode. -/
def decryptBlocks (H : HashFn) (d n k : Nat) :
    Nat → List Nat → Except Err (List Nat)
  | 0, _ => .ok []
  | cnt + 1, ct =>
    let cb := ct.take k
    let c := fromBytesBE cb
    let m := c ^ d % n
    ebind (toBytesBE k m) fun em =>
    ebind (oaepDecode H em k []) fun block =>
    ebind (decryptBlocks H d n k cnt (ct.drop k)) fun rest =>
    .ok (block ++ rest)

/-- `decrypt(ciphertext, private_key)`. -/
def decrypt (H : HashFn) (ct : List Nat) (priv : Nat × Nat) :
    Except Err (List Nat) :=
  let d := priv.1
  let n := priv.2
  let k := byteLen n
  if ct.length < 4 then .error .tooShort
  else
    let numBlocks := fromBytesBE (ct.take 4)
    let rest := ct.drop 4
    if rest.length ≠ numBlocks * k then .error .incorrectLength
    else decryptBlocks H d n k numBlocks rest

/-! ## Error classification helpers -/

/-- The two "malformed ciphertext" errors of `decrypt`'s input validation. -/
def isMalformedErr : Err → Bool
  | .tooShort => true
  | .incorrectLength => true
  | _ => false

theorem mgf1Loop_error_class (H : HashFn) (seed : List Nat) (len : Nat) :
    ∀ T c e, mgf1Loop H seed len T c = .error e → isMalformedErr e = false := by
  have main : ∀ fuel T c e, len - T.length = fuel →
      mgf1Loop H seed len T c = .error e → isMalformedErr e = false := by
    intro fuel
    induction fuel using Nat.strong_induction_on with
    | _ fuel ih =>
      intro T c e hfe h
      rw [mgf1Loop] at h
      by_cases hT : T.length < len
      · rw [dif_pos hT] at h
        by_cases hc : c < 2 ^ 32
        · rw [if_pos hc] at h
          have h32 := H.len_eq (seed ++ natToBytesBE 4 c)
          refine ih (len - (T ++ H.f (seed ++ natToBytesBE 4 c)).length) ?_ _ _ _ rfl h
          simp only [List.length_append, h32]
          omega
        · rw [if_neg hc] at h
          cases h
          rfl
      · rw [dif_neg hT] at h
        cases h
  exact fun T c e => main (len - T.length) T c e rfl

theorem mgf1_error_class (H : HashFn) (seed : List Nat) (len : Nat) (e : Err)
    (h : mgf1 H seed len = .error e) : isMalformedErr e = false := by
  rw [mgf1] at h
  by_cases hg : len > 2 ^ 32 * 32
  · rw [if_pos hg] at h
    cases h
    rfl
  · rw [if_neg hg] at h
    exact mgf1Loop_error_class H seed len [] 0 e h

theorem findSep_error_class (l : List Nat) (i : Nat) (e : Err)
    (h : findSep l i = .error e) : isMalformedErr e = false := by
  induction l generalizing i with
  | nil =>
    rw [findSep] at h
    cases h
    rfl
  | cons b rest ih =>
    rw [findSep] at h
    by_cases hb : b = 1
    · rw [if_pos hb] at h; cases h
    · rw [if_neg hb] at h
      by_cases hb0 : b ≠ 0
      · rw [if_pos hb0] at h; cases h; rfl
      · rw [if_neg hb0] at h
        exact ih _ h

theorem oaepDecode_error_class (H : HashFn) (encoded : List Nat) (k : Nat)
    (label : List Nat) (e : Err)
    (h : oaepDecode H encoded k label = .error e) : isMalformedErr e = false := by
  rw [oaepDecode] at h
  by_cases hlen : encoded.length ≠ k ∨ k < 2 * 32 + 2
  · rw [if_pos hlen] at h; cases h; rfl
  · rw [if_neg hlen] at h
    rw [oaepRecoverDB] at h
    cases hm1 : mgf1 H (encoded.drop 33) 32 with
    | error e1 =>
      rw [hm1] at h
      simp only [ebind_error] at h
      cases h
      exact mgf1_error_class _ _ _ _ hm1
    | ok seedMask =>
      rw [hm1] at h
      simp only [ebind_ok] at h
      cases hm2 : mgf1 H (xorBytes ((encoded.drop 1).take 32) seedMask) (k - 32 - 1) with
      | error e2 =>
        rw [hm2] at h
        simp only [ebind_error] at h
        cases h
        exact mgf1_error_class _ _ _ _ hm2
      | ok dbMask =>
        rw [hm2] at h
        simp only [ebind_ok] at h
        set db := xorBytes (encoded.drop 33) dbMask with hdb
        by_cases hl : H.f label ≠ db.take 32
        · rw [if_pos hl] at h; cases h; rfl
        · rw [if_neg hl] at h
          cases hf : findSep (db.drop 32) 32 with
          | error e3 =>
            rw [hf] at h
            cases h
            exact findSep_error_class _ _ _ hf
          | ok sep =>
            rw [hf] at h
            dsimp only at h
            by_cases hy : encoded.headI ≠ 0
            · rw [if_pos hy] at h; cases h; rfl
            · rw [if_neg hy] at h; cases h

theorem toBytesBE_error_class (len n : Nat) (e : Err)
    (h : toBytesBE len n = .error e) : isMalformedErr e = false := by
  rw [toBytesBE] at h
  by_cases hlt : n < 256 ^ len
  · rw [if_pos hlt] at h; cases h
  · rw [if_neg hlt] at h; cases h; rfl

theorem decryptBlocks_error_class (H : HashFn) (d n k : Nat) :
    ∀ cnt ct e, decryptBlocks H d n k cnt ct = .error e → isMalformedErr e = false := by
  intro cnt
  induction cnt with
  | zero => intro ct e h; rw [decryptBlocks] at h; cases h
  | succ m ih =>
    intro ct e h
    rw [decryptBlocks] at h
    cases ht : toBytesBE k (fromBytesBE (ct.take k) ^ d % n) with
    | error e1 =>
      rw [ht] at h
      simp only [ebind_error] at h
      cases h
      exact toBytesBE_error_class _ _ _ ht
    | ok em =>
      rw [ht] at h
      simp only [ebind_ok] at h
      cases hd : oaepDecode H em k [] with
      | error e2 =>
        rw [hd] at h
        simp only [ebind_error] at h
        cases h
        exact oaepDecode_error_class _ _ _ _ _ hd
      | ok block =>
        rw [hd] at h
        simp only [ebind_ok] at h
        cases hr : decryptBlocks H d n k m (ct.drop k) with
        | error e3 =>
          rw [hr] at h
          simp only [ebind_error] at h
          cases h
          exact ih _ _ hr
        | ok rest =>
          rw [hr] at h
          simp only [ebind_ok] at h
          cases h

end RSA

/-! ## Claim theorems -/

open RSA

set_option maxRecDepth 4000 in
/-- C2 (code evidence): the witness base of `_is_prime` is
`2 + (one uniform byte mod (n - 3))`, so for `n = 263` every drawable base is
at most `257`, and in particular `260 ∈ [2, n − 2] = [2, 261]` can never be
drawn — refuting "every integer in [2, n−2] is a possible value of a". -/
theorem c2_mrBase_not_full_range :
    (∀ u, u < 256 → mrBase 263 u ≤ 257) ∧
    (2 ≤ 260 ∧ 260 ≤ 263 - 2) ∧
    (∀ u, u < 256 → mrBase 263 u ≠ 260) := by
  refine ⟨?_, by omega, ?_⟩ <;> decide

/-- C2 witness: the concrete byte `17` indeed fails to reach `260`. -/
theorem c2_mrBase_not_full_range_witness :
    mrBase 263 17 ≤ 257 ∧ mrBase 263 17 ≠ 260 :=
  ⟨c2_mrBase_not_full_range.1 17 (by norm_num),
   c2_mrBase_not_full_range.2.2 17 (by norm_num)⟩

/-- C10: in `decrypt`, re-encoding `m = c^d mod n` as `k = ceil(bits(n)/8)`
big-endian bytes never overflows: `m < n ≤ 2^(8k)`, so the out-of-range
branch of `toBytesBE` is unreachable. -/
theorem c10_decrypt_reencode_safe (c d n : Nat) (hn : 0 < n) :
    c ^ d % n < n ∧ n ≤ 2 ^ (8 * byteLen n) ∧
    toBytesBE (byteLen n) (c ^ d % n) =
      .ok (natToBytesBE (byteLen n) (c ^ d % n)) := by
  have hsize : Nat.size n ≤ 8 * byteLen n := by
    have h8 := Nat.div_add_mod (Nat.size n + 7) 8
    have hm : (Nat.size n + 7) % 8 < 8 := Nat.mod_lt _ (by norm_num)
    unfold byteLen
    omega
  have hlt : n < 2 ^ (8 * byteLen n) :=
    lt_of_lt_of_le (Nat.lt_size_self n) (Nat.pow_le_pow_right (by norm_num) hsize)
  have hmod : c ^ d % n < n := Nat.mod_lt _ hn
  have hpow : (256 : Nat) ^ byteLen n = 2 ^ (8 * byteLen n) := by
    rw [show (256 : Nat) = 2 ^ 8 by norm_num, ← pow_mul]
  refine ⟨hmod, le_of_lt hlt, ?_⟩
  rw [toBytesBE, if_pos]
  rw [hpow]
  omega

/-- C10 witness: a concrete private key and ciphertext block. -/
theorem c10_decrypt_reencode_safe_witness :
    0 < 5 ∧ 7 ^ 3 % 5 < 5 ∧ 5 ≤ 2 ^ (8 * byteLen 5) ∧
    toBytesBE (byteLen 5) (7 ^ 3 % 5) =
      .ok (natToBytesBE (byteLen 5) (7 ^ 3 % 5)) :=
  ⟨by norm_num, c10_decrypt_reencode_safe 7 3 5 (by norm_num)⟩

/-- C8: for `L ≤ 2^32·h` (`h = 32`), `_mgf1` returns exactly the first `L`
bytes of `hash(seed‖C0) ‖ hash(seed‖C1) ‖ …` (counters 4-byte big-endian
from 0), so the output has length exactly `L`; for larger `L` it fails. -/
theorem c8_mgf1_spec (H : HashFn) (seed : List Nat) (L : Nat) :
    (L ≤ 2 ^ 32 * 32 →
      mgf1 H seed L = .ok ((mgfConcat H seed ((L + 31) / 32)).take L) ∧
      ∃ t, mgf1 H seed L = .ok t ∧ t.length = L) ∧
    (2 ^ 32 * 32 < L → mgf1 H seed L = .error .maskTooLong) := by
  constructor
  · intro hL
    constructor
    · exact mgf1_eq H seed L ((L + 31) / 32) (by omega) hL
    · obtain ⟨t, ht, hlen, _⟩ := mgf1_ok H seed L hL
      exact ⟨t, ht, hlen⟩
  · intro hL
    rw [mgf1, if_pos (by omega)]

/-- C8 witness: a concrete 5-byte mask request. -/
theorem c8_mgf1_spec_witness :
    (5 : Nat) ≤ 2 ^ 32 * 32 ∧
    mgf1 constHash [1, 2] 5 = .ok ((mgfConcat constHash [1, 2] ((5 + 31) / 32)).take 5) :=
  ⟨by norm_num, ((c8_mgf1_spec constHash [1, 2] 5).1 (by norm_num)).1⟩

/-- C6: `decrypt` fails with a malformed-ciphertext error (`tooShort` or
`incorrectLength`) exactly when the ciphertext is shorter than 4 bytes, or
the length after the 4-byte big-endian block-count header is not exactly
`blockCount · k` with `k = ceil(bits(n)/8)`; the `Except` result carries no
partial plaintext on error. -/
theorem c6_decrypt_malformed_iff (H : HashFn) (ct : List Nat) (d n : Nat) :
    (decrypt H ct (d, n) = .error .tooShort ∨
     decrypt H ct (d, n) = .error .incorrectLength) ↔
    (ct.length < 4 ∨
     (ct.drop 4).length ≠ fromBytesBE (ct.take 4) * byteLen n) := by
  unfold decrypt
  by_cases h4 : ct.length < 4
  · rw [if_pos h4]
    simp [h4]
  · rw [if_neg h4]
    by_cases hlen : (ct.drop 4).length ≠ fromBytesBE (ct.take 4) * byteLen n
    · rw [if_pos hlen]
      simp only [List.length_drop] at hlen
      simp [h4, hlen]
    · rw [if_neg hlen]
      simp only [h4, hlen, or_self, iff_false, false_or]
      intro hcontra
      rcases hcontra with hc | hc
      · have := decryptBlocks_error_class H d n (byteLen n) _ _ _ hc
        simp [isMalformedErr] at this
      · have := decryptBlocks_error_class H d n (byteLen n) _ _ _ hc
        simp [isMalformedErr] at this

/-! ## Helper lemmas for the block driver -/

namespace RSA

theorem toBytesBE_ok (len n : Nat) (l : List Nat) (h : toBytesBE len n = .ok l) :
    l = natToBytesBE len n ∧ n < 256 ^ len := by
  rw [toBytesBE] at h
  by_cases hlt : n < 256 ^ len
  · rw [if_pos hlt] at h
    cases h
    exact ⟨rfl, hlt⟩
  · rw [if_neg hlt] at h
    cases h

theorem encryptBlocks_ok_length (H : HashFn) (seeds : Nat → List Nat)
    (e n k : Nat) :
    ∀ blocks i body, encryptBlocks H seeds e n k blocks i = .ok body →
      body.length = k * blocks.length := by
  intro blocks
  induction blocks with
  | nil =>
    intro i body h
    rw [encryptBlocks] at h
    cases h
    rfl
  | cons b rest ih =>
    intro i body h
    rw [encryptBlocks] at h
    cases he : oaepEncode H (seeds i) b k [] with
    | error e1 => rw [he] at h; simp only [ebind_error] at h; cases h
    | ok em =>
      rw [he] at h
      simp only [ebind_ok] at h
      cases ht : toBytesBE k (fromBytesBE em ^ e % n) with
      | error e2 => rw [ht] at h; simp only [ebind_error] at h; cases h
      | ok cb =>
        rw [ht] at h
        simp only [ebind_ok] at h
        cases hr : encryptBlocks H seeds e n k rest (i + 1) with
        | error e3 => rw [hr] at h; simp only [ebind_error] at h; cases h
        | ok tail =>
          rw [hr] at h
          simp only [ebind_ok] at h
          cases h
          have hcb : cb.length = k := by
            rw [(toBytesBE_ok _ _ _ ht).1, natToBytesBE_length]
          simp only [List.length_append, List.length_cons, hcb, ih _ _ hr]
          ring

theorem chunkList_ne_nil (sz : Nat) (l : List Nat) (hsz : sz ≠ 0) (hl : l ≠ []) :
    chunkList sz l ≠ [] := by
  cases l with
  | nil => exact absurd rfl hl
  | cons x xs =>
    rw [chunkList, dif_neg hsz]
    exact List.cons_ne_nil _ _

end RSA

/-- C9 (amended): `decrypt` applied to the 4-byte ciphertext with block count
0 succeeds and returns the empty byte string for every private key; and for
keys whose modulus byte-length is at least 67 (so `max_block_size ≥ 1`),
`encrypt` can never produce this ciphertext. -/
theorem c9_zero_block_ciphertext :
    (∀ (H : HashFn) (d n : Nat), decrypt H [0, 0, 0, 0] (d, n) = .ok []) ∧
    (∀ (H : HashFn) (seeds : Nat → List Nat) (M : List Nat) (e n : Nat),
      67 ≤ byteLen n → encrypt H seeds M (e, n) ≠ .ok [0, 0, 0, 0]) := by
  constructor
  · intro H d n
    simp [decrypt, fromBytesBE, decryptBlocks]
  · intro H seeds M e n hk hcontra
    rw [encrypt] at hcontra
    by_cases hM : M.length = 0
    · rw [if_pos hM] at hcontra
      cases hcontra
    · rw [if_neg hM] at hcontra
      have hmb : ¬((byteLen n : Int) - 2 * 32 - 2 = 0) := by omega
      have hmb2 : ¬((byteLen n : Int) - 2 * 32 - 2 < 0) := by omega
      rw [if_neg hmb, if_neg hmb2] at hcontra
      dsimp only at hcontra
      set sz := ((byteLen n : Int) - 2 * 32 - 2).toNat with hsz
      have hsz1 : sz ≠ 0 := by omega
      have hMne : M ≠ [] := fun hc => hM (by simp [hc])
      have hblocks := chunkList_ne_nil sz M hsz1 hMne
      cases hb : encryptBlocks H seeds e n (byteLen n) (chunkList sz M) 0 with
      | error e1 => rw [hb] at hcontra; simp only [ebind_error] at hcontra; cases hcontra
      | ok body =>
        rw [hb] at hcontra
        simp only [ebind_ok] at hcontra
        cases hh : toBytesBE 4 (chunkList sz M).length with
        | error e2 => rw [hh] at hcontra; simp only [ebind_error] at hcontra; cases hcontra
        | ok hdr =>
          rw [hh] at hcontra
          simp only [ebind_ok] at hcontra
          have hbody := encryptBlocks_ok_length H seeds e n (byteLen n) _ _ _ hb
          have hhdr : hdr.length = 4 := by
            rw [(toBytesBE_ok _ _ _ hh).1, natToBytesBE_length]
          have hcnt : 1 ≤ (chunkList sz M).length :=
            Nat.one_le_iff_ne_zero.mpr (fun hc => hblocks (List.length_eq_zero.mp hc))
          have heq : hdr ++ body = [0, 0, 0, 0] := by
            injection hcontra
          have hlen4 : (hdr ++ body).length = 4 := by rw [heq]; rfl
          rw [List.length_append, hhdr, hbody] at hlen4
          have hbig : 67 ≤ byteLen n * (chunkList sz M).length :=
            le_trans (by omega) (Nat.mul_le_mul_left _ hcnt)
          omega

theorem size_eq_of_bounds {n s : Nat} (h1 : 2 ^ s ≤ n) (h2 : n < 2 ^ (s + 1)) :
    Nat.size n = s + 1 := by
  have hle : Nat.size n ≤ s + 1 := Nat.size_le.mpr h2
  have hlt : s < Nat.size n := Nat.lt_size.mpr h1
  omega

theorem byteLen_two_pow_528 : byteLen (2 ^ 528) = 67 := by
  rw [byteLen, Nat.size_pow]

theorem byteLen_143 : byteLen 143 = 1 := by
  rw [byteLen, size_eq_of_bounds (by norm_num : 2 ^ 7 ≤ 143) (by norm_num)]

/-- C9 witness: concrete instances of both conjuncts. -/
theorem c9_zero_block_ciphertext_witness :
    decrypt constHash [0, 0, 0, 0] (3, 5) = .ok [] ∧
    (67 ≤ byteLen (2 ^ 528) ∧
      encrypt constHash (fun _ => List.replicate 32 0) [1] (65537, 2 ^ 528) ≠
        .ok [0, 0, 0, 0]) :=
  ⟨c9_zero_block_ciphertext.1 constHash 3 5,
   by rw [byteLen_two_pow_528],
   c9_zero_block_ciphertext.2 constHash (fun _ => List.replicate 32 0) [1] 65537
     (2 ^ 528) (by rw [byteLen_two_pow_528])⟩

/-- C9 counterexample: with the small modulus `n = 143` (`k = 1`,
`max_block_size = -65 < 0`, so the block split is empty), `encrypt` of the
non-empty message `[77]` produces exactly the 4-zero-byte ciphertext the
claim says it can never produce. -/
theorem c9_encrypt_produces_zero_blocks :
    encrypt constHash (fun _ => List.replicate 32 0) [77] (65537, 143) =
      .ok [0, 0, 0, 0] ∧ ([77] : List Nat) ≠ [] := by
  constructor
  · unfold encrypt
    dsimp only
    rw [byteLen_143]
    rfl
  · decide

/-- C4 (amended): with the modulus byte-length inside MGF1's mask limit
(`k - 33 ≤ 2^32·32`, true for every real modulus), `_oaep_encode` returns a
block of exactly `k` bytes with leading byte `0x00` whenever
`len(M) ≤ k - 2h - 2`, and fails with the message-too-long encoding error
whenever `len(M) > k - 2h - 2`. -/
theorem c4_oaepEncode_contract (H : HashFn) (seed message : List Nat) (k : Nat)
    (label : List Nat) (hseed : seed.length = 32)
    (hk : k - 32 - 1 ≤ 2 ^ 32 * 32) :
    ((message.length : Int) ≤ (k : Int) - 2 * 32 - 2 →
      ∃ em, oaepEncode H seed message k label = .ok em ∧
        em.length = k ∧ em.headI = 0) ∧
    ((message.length : Int) > (k : Int) - 2 * 32 - 2 →
      oaepEncode H seed message k label = .error .msgTooLong) := by
  constructor
  · intro hlen
    have hk66 : message.length + 66 ≤ k := by omega
    obtain ⟨dbMask, hdb, hdblen, _⟩ := mgf1_ok H seed (k - 32 - 1) hk
    rw [oaepEncode, if_neg (by omega)]
    dsimp only
    rw [hdb]
    simp only [ebind_ok]
    set db := H.f label ++ List.replicate (k - message.length - 2 * 32 - 2) 0
      ++ [1] ++ message with hdbdef
    have hdblength : db.length = k - 33 := by
      rw [hdbdef]
      simp only [List.length_append, List.length_replicate, List.length_cons,
        List.length_nil, H.len_eq]
      omega
    obtain ⟨seedMask, hsm, hsmlen, _⟩ :=
      mgf1_ok H (xorBytes db dbMask) 32 (by norm_num)
    rw [hsm]
    simp only [ebind_ok]
    refine ⟨_, rfl, ?_, rfl⟩
    simp only [List.length_cons, List.length_append, xorBytes_length,
      hdblength, hdblen, hsmlen, hseed]
    omega
  · intro hlen
    rw [oaepEncode, if_pos (by omega)]

/-- C4 witness: the empty message at the minimal modulus length `k = 66`. -/
theorem c4_oaepEncode_contract_witness :
    (List.replicate 32 0).length = 32 ∧ (66 : Nat) - 32 - 1 ≤ 2 ^ 32 * 32 ∧
    ((([] : List Nat).length : Int) ≤ (66 : Int) - 2 * 32 - 2 →
      ∃ em, oaepEncode constHash (List.replicate 32 0) [] 66 [] = .ok em ∧
        em.length = 66 ∧ em.headI = 0) :=
  ⟨by decide, by norm_num,
   (c4_oaepEncode_contract constHash (List.replicate 32 0) [] 66 []
     (by decide) (by norm_num)).1⟩

/-- C4 counterexample: for the modulus byte-length `k = 2^37 + 34` the claim's
length condition holds for the empty message, yet `_oaep_encode` does not
return a `k`-byte block — it fails with MGF1's mask-too-long error. -/
theorem c4_oaepEncode_mask_limit :
    ((([] : List Nat).length : Int) ≤ ((2 ^ 37 + 34 : Nat) : Int) - 2 * 32 - 2) ∧
    oaepEncode constHash (List.replicate 32 0) [] (2 ^ 37 + 34) [] =
      .error .maskTooLong := by
  constructor
  · push_cast
    norm_num
  · have hm : mgf1 constHash (List.replicate 32 0) (2 ^ 37 + 34 - 32 - 1) =
        .error .maskTooLong := by
      rw [mgf1, if_pos (by norm_num)]
    rw [oaepEncode, if_neg (by push_cast; norm_num)]
    dsimp only
    rw [hm]
    simp only [ebind_error]

/-! ## Helper lemmas for `_generate_prime` -/

namespace RSA

theorem primeCandidate_odd (b : Nat) (chunk : List Nat) :
    primeCandidate b chunk % 2 = 1 := by
  have htb : (primeCandidate b chunk).testBit 0 = true := by
    rw [primeCandidate]
    simp only [Nat.testBit_or]
    have h1 : (1 : Nat).testBit 0 = true := by decide
    rw [h1]
    simp
  rw [Nat.testBit_zero] at htb
  simpa using htb

theorem primeCandidate_size (b : Nat) (chunk : List Nat) (hb : 1 ≤ b)
    (hlen : chunk.length = b / 8) (hbytes : ∀ x ∈ chunk, x < 256) :
    Nat.size (primeCandidate b chunk) = b := by
  have hup : primeCandidate b chunk < 2 ^ b := by
    rw [primeCandidate]
    have h1 : fromBytesBE chunk < 2 ^ b := by
      have := fromBytesBE_lt chunk hbytes
      rw [hlen] at this
      calc fromBytesBE chunk < 256 ^ (b / 8) := this
      _ = 2 ^ (8 * (b / 8)) := by
          rw [show (256 : Nat) = 2 ^ 8 by norm_num, ← pow_mul]
      _ ≤ 2 ^ b := Nat.pow_le_pow_right (by norm_num)
          (by have := Nat.div_mul_le_self b 8; omega)
    have h2 : (1 <<< (b - 1)) ||| 1 < 2 ^ b := by
      refine Nat.or_lt_two_pow ?_ ?_
      · rw [Nat.shiftLeft_eq, one_mul]
        exact Nat.pow_lt_pow_right (by norm_num) (by omega)
      · exact Nat.one_lt_two_pow_iff.mpr (by omega)
    exact Nat.or_lt_two_pow h1 h2
  have hlow : 2 ^ (b - 1) ≤ primeCandidate b chunk := by
    refine Nat.testBit_implies_ge ?_
    rw [primeCandidate]
    simp only [Nat.testBit_or]
    have : (1 <<< (b - 1)).testBit (b - 1) = true := by
      rw [Nat.shiftLeft_eq, one_mul]
      exact Nat.testBit_two_pow_self
    rw [this]
    simp
  have hb1 : b - 1 + 1 = b := by omega
  rw [← hb1] at hup
  rw [size_eq_of_bounds hlow hup, hb1]

theorem generatePrime_some (b : Nat) :
    ∀ (attempts : List (List Nat × List Nat)) (p : Nat),
      generatePrime b attempts = some p →
      ∃ a ∈ attempts, p = primeCandidate b a.1 ∧ isPrime p a.2 = true := by
  intro attempts
  induction attempts with
  | nil => intro p h; cases h
  | cons a rest ih =>
    intro p h
    rw [generatePrime] at h
    by_cases hp : isPrime (primeCandidate b a.1) a.2 = true
    · rw [if_pos hp] at h
      cases h
      exact ⟨a, by simp, rfl, hp⟩
    · rw [if_neg hp] at h
      obtain ⟨a2, ha2, heq, hpr⟩ := ih p h
      exact ⟨a2, by simp [ha2], heq, hpr⟩

end RSA

/-- C7: for an even target bit-length `b ≥ 16`, every candidate tested by
`_generate_prime` (from `b/8` random bytes with MSB and LSB forced) is odd
with bit-length exactly `b`, and any returned value is such a candidate that
passed the Miller–Rabin test on its consumed witness bytes. -/
theorem c7_generatePrime_spec (b : Nat) (hb16 : 16 ≤ b) (hbeven : b % 2 = 0)
    (attempts : List (List Nat × List Nat))
    (hchunks : ∀ a ∈ attempts, a.1.length = b / 8 ∧ ∀ x ∈ a.1, x < 256) :
    (∀ a ∈ attempts, primeCandidate b a.1 % 2 = 1 ∧
      Nat.size (primeCandidate b a.1) = b) ∧
    (∀ p, generatePrime b attempts = some p →
      p % 2 = 1 ∧ Nat.size p = b ∧
      ∃ a ∈ attempts, p = primeCandidate b a.1 ∧ isPrime p a.2 = true) := by
  have hcand : ∀ a ∈ attempts, primeCandidate b a.1 % 2 = 1 ∧
      Nat.size (primeCandidate b a.1) = b := by
    intro a ha
    obtain ⟨hlen, hbytes⟩ := hchunks a ha
    exact ⟨primeCandidate_odd b a.1,
      primeCandidate_size b a.1 (by omega) hlen hbytes⟩
  refine ⟨hcand, fun p hp => ?_⟩
  obtain ⟨a, ha, heq, hprime⟩ := generatePrime_some b attempts p hp
  obtain ⟨hodd, hsize⟩ := hcand a ha
  exact ⟨heq ▸ hodd, heq ▸ hsize, a, ha, heq, hprime⟩

/-- C7 witness: `b = 16` with the single attempt producing candidate
`0x8003 = 32771`. -/
theorem c7_generatePrime_spec_witness :
    (16 ≤ 16 ∧ 16 % 2 = 0 ∧
      ∀ a ∈ [([128, 2], [0, 0, 0, 0, 0])], a.1.length = 16 / 8 ∧
        ∀ x ∈ a.1, x < 256) ∧
    (∀ a ∈ [(([128, 2] : List Nat), ([0, 0, 0, 0, 0] : List Nat))],
      primeCandidate 16 a.1 % 2 = 1 ∧ Nat.size (primeCandidate 16 a.1) = 16) :=
  ⟨⟨by norm_num, by norm_num, by decide⟩,
   (c7_generatePrime_spec 16 (by norm_num) (by norm_num) _ (by decide)).1⟩

/-! ## Helper lemmas for `generate_keypair` -/

namespace RSA

theorem extendedGcd_spec (a b : Nat) :
    (extendedGcd a b).1 = Nat.gcd a b ∧
    (a : Int) * (extendedGcd a b).2.1 + (b : Int) * (extendedGcd a b).2.2 =
      (Nat.gcd a b : Int) := by
  have main : ∀ fuel a b, a ≤ fuel →
      (extendedGcd a b).1 = Nat.gcd a b ∧
      (a : Int) * (extendedGcd a b).2.1 + (b : Int) * (extendedGcd a b).2.2 =
        (Nat.gcd a b : Int) := by
    intro fuel
    induction fuel with
    | zero =>
      intro a b ha
      have h0 : a = 0 := by omega
      subst h0
      rw [extendedGcd]
      simp [Nat.gcd_zero_left]
    | succ f ih =>
      intro a b ha
      rw [extendedGcd]
      by_cases h : a = 0
      · rw [dif_pos h]
        subst h
        simp [Nat.gcd_zero_left]
      · rw [dif_neg h]
        have hmod : b % a < a := Nat.mod_lt _ (Nat.pos_of_ne_zero h)
        obtain ⟨hg, hx⟩ := ih (b % a) a (by omega)
        dsimp only
        constructor
        · rw [hg]
          exact (Nat.gcd_rec a b).symm
        · rw [Nat.gcd_rec a b]
          have hb : (b : Int) = (a : Int) * ((b / a : Nat) : Int) +
              ((b % a : Nat) : Int) := by
            exact_mod_cast (Nat.div_add_mod b a).symm
          rw [hb]
          linear_combination hx
  exact main a a b le_rfl

theorem modInverse_err (a m : Nat) (h : Nat.gcd a m ≠ 1) :
    modInverse a m = .error .noInverse := by
  rw [modInverse]
  rw [if_pos]
  rw [(extendedGcd_spec a m).1]
  exact h

theorem modInverse_ok (a m : Nat) (hm : 2 ≤ m) (hg : Nat.gcd a m = 1) :
    ∃ d, modInverse a m = .ok d ∧ d < m ∧ a * d % m = 1 := by
  obtain ⟨hg1, hx⟩ := extendedGcd_spec a m
  rw [modInverse]
  rw [if_neg (by rw [hg1, hg]; simp)]
  set x := (extendedGcd a m).2.1 with hxdef
  set y := (extendedGcd a m).2.2 with hydef
  have hm0 : (0 : Int) < (m : Int) := by exact_mod_cast (by omega : 0 < m)
  have hd0 : (0 : Int) ≤ (x % (m : Int) + m) % m := Int.emod_nonneg _ (ne_of_gt hm0)
  have hdm : (x % (m : Int) + m) % m < m := Int.emod_lt_of_pos _ hm0
  refine ⟨((x % (m : Int) + m) % m).toNat, rfl, ?_, ?_⟩
  · omega
  · have hdx : (x % (m : Int) + m) % m = x % m := by
      conv_lhs => rw [show x % (m : Int) + m = x % m + m * 1 by ring]
      rw [Int.add_mul_emod_self_left, Int.emod_emod_of_dvd _ dvd_rfl]
    have hax : (a : Int) * x % m = 1 % m := by
      rw [hg] at hx
      have : (a : Int) * x = 1 - (m : Int) * y := by push_cast at hx; linarith
      rw [this]
      conv_lhs => rw [show (1 : Int) - (m : Int) * y = 1 + m * (-y) by ring]
      rw [Int.add_mul_emod_self_left]
    have had : (a : Int) * (((x % (m : Int) + m) % m).toNat : Int) % m = 1 % m := by
      rw [Int.toNat_of_nonneg hd0, hdx, Int.mul_emod, Int.emod_emod_of_dvd _ dvd_rfl,
        ← Int.mul_emod, hax]
    have hcast : ((a * ((x % (m : Int) + m) % m).toNat % m : Nat) : Int) =
        ((1 % m : Nat) : Int) := by
      push_cast
      exact had
    have hnat : a * ((x % (m : Int) + m) % m).toNat % m = 1 % m := by
      exact_mod_cast hcast
    rw [hnat, Nat.mod_eq_of_lt (by omega)]

theorem pickQ_mem (p : Nat) : ∀ qs q, pickQ p qs = some q → q ∈ qs ∧ q ≠ p := by
  intro qs
  induction qs with
  | nil => intro q h; cases h
  | cons x xs ih =>
    intro q h
    rw [pickQ] at h
    by_cases hx : x = p
    · rw [if_pos hx] at h
      obtain ⟨hmem, hne⟩ := ih q h
      exact ⟨by simp [hmem], hne⟩
    · rw [if_neg hx] at h
      cases h
      exact ⟨by simp, hx⟩

theorem phi_two_le (p q : Nat) (hp : 2 ≤ p) (hq : 2 ≤ q) (hne : q ≠ p) :
    2 ≤ (p - 1) * (q - 1) := by
  rcases Nat.lt_or_ge p 3 with h3 | h3
  · have hp2 : p = 2 := by omega
    subst hp2
    have hq3 : 3 ≤ q := by omega
    simpa using (by omega : 2 ≤ q - 1)
  · calc 2 = 2 * 1 := rfl
    _ ≤ (p - 1) * (q - 1) := Nat.mul_le_mul (by omega) (by omega)

end RSA

/-- C3: a successful `generate_keypair` (with the generated probable primes
`p` and the stream `qs` of candidates for `q`, resampled while equal to `p`)
returns `((e, n), (d, n'))` with `e = 65537`, `n' = n = p·q`, `q ≠ p`, and
`d` the modular inverse of `e` mod `phi = (p-1)(q-1)` (`0 ≤ d < phi`,
`e·d ≡ 1 (mod phi)`); when `gcd(e, phi) ≠ 1` the call fails without
producing a key. -/
theorem c3_generateKeypair_spec (p : Nat) (qs : List Nat) (q : Nat)
    (hp : 2 ≤ p) (hqs : ∀ x ∈ qs, 2 ≤ x) (hq : pickQ p qs = some q) :
    q ∈ qs ∧ q ≠ p ∧
    generateKeypair p qs = some (keypairFrom p q) ∧
    (Nat.gcd 65537 ((p - 1) * (q - 1)) = 1 →
      ∃ d, keypairFrom p q = .ok ((65537, p * q), (d, p * q)) ∧
        d < (p - 1) * (q - 1) ∧ 65537 * d % ((p - 1) * (q - 1)) = 1) ∧
    (Nat.gcd 65537 ((p - 1) * (q - 1)) ≠ 1 →
      keypairFrom p q = .error .noInverse) := by
  obtain ⟨hmem, hne⟩ := pickQ_mem p qs q hq
  have hq2 : 2 ≤ q := hqs q hmem
  have hphi : 2 ≤ (p - 1) * (q - 1) := phi_two_le p q hp hq2 hne
  refine ⟨hmem, hne, by rw [generateKeypair, hq]; rfl, ?_, ?_⟩
  · intro hg
    obtain ⟨d, hd, hdlt, hdinv⟩ := modInverse_ok 65537 ((p - 1) * (q - 1)) hphi hg
    refine ⟨d, ?_, hdlt, hdinv⟩
    rw [keypairFrom]
    rw [hd]
    rfl
  · intro hg
    rw [keypairFrom]
    rw [modInverse_err _ _ hg]
    rfl

/-- C3 witness: `p = 3` with candidate stream `[3, 5]` (the first candidate
collides with `p` and is resampled). -/
theorem c3_generateKeypair_spec_witness :
    (2 ≤ 3 ∧ (∀ x ∈ ([3, 5] : List Nat), 2 ≤ x) ∧
      pickQ 3 [3, 5] = some 5) ∧
    ((5 : Nat) ∈ ([3, 5] : List Nat) ∧ (5 : Nat) ≠ 3 ∧
      generateKeypair 3 [3, 5] = some (keypairFrom 3 5)) :=
  ⟨⟨by norm_num, by decide, by decide⟩,
   ⟨(c3_generateKeypair_spec 3 [3, 5] 5 (by norm_num) (by decide) (by decide)).1,
    (c3_generateKeypair_spec 3 [3, 5] 5 (by norm_num) (by decide) (by decide)).2.1,
    (c3_generateKeypair_spec 3 [3, 5] 5 (by norm_num) (by decide) (by decide)).2.2.1⟩⟩

/-! ## Helper lemmas for `_oaep_decode` -/

namespace RSA

theorem findSep_ok_of (z : Nat) (rest : List Nat) (i : Nat) :
    findSep (List.replicate z 0 ++ 1 :: rest) i = .ok (i + z) := by
  induction z generalizing i with
  | zero => simp [findSep]
  | succ z' ih =>
    rw [List.replicate_succ, List.cons_append, findSep]
    rw [if_neg (by norm_num), if_neg (by norm_num)]
    rw [ih (i + 1)]
    congr 1
    omega

theorem findSep_ok_inv (l : List Nat) :
    ∀ i j, findSep l i = .ok j →
      ∃ z rest, l = List.replicate z 0 ++ 1 :: rest ∧ j = i + z := by
  induction l with
  | nil => intro i j h; cases h
  | cons b t ih =>
    intro i j h
    rw [findSep] at h
    by_cases hb : b = 1
    · rw [if_pos hb] at h
      cases h
      exact ⟨0, t, by simp [hb], by omega⟩
    · rw [if_neg hb] at h
      by_cases hb0 : b ≠ 0
      · rw [if_pos hb0] at h; cases h
      · rw [if_neg hb0] at h
        push_neg at hb0
        obtain ⟨z', rest, hdec, hj⟩ := ih (i + 1) j h
        refine ⟨z' + 1, rest, ?_, by omega⟩
        rw [List.replicate_succ, List.cons_append, ← hdec, hb0]

theorem findSep_error_types (l : List Nat) :
    ∀ i e, findSep l i = .error e → e = .noSeparator ∨ e = .invalidPadding := by
  induction l with
  | nil => intro i e h; cases h; left; rfl
  | cons b t ih =>
    intro i e h
    rw [findSep] at h
    by_cases hb : b = 1
    · rw [if_pos hb] at h; cases h
    · rw [if_neg hb] at h
      by_cases hb0 : b ≠ 0
      · rw [if_pos hb0] at h; cases h; right; rfl
      · rw [if_neg hb0] at h
        exact ih _ _ h

theorem drop_after_sep (db : List Nat) (z : Nat) (rest : List Nat)
    (h : db.drop 32 = List.replicate z 0 ++ 1 :: rest) :
    db.drop (32 + z + 1) = rest := by
  have h1 : db.drop (32 + z + 1) = (db.drop 32).drop (z + 1) := by
    rw [List.drop_drop, Nat.add_assoc]
  rw [h1, h]
  have h2 : (List.replicate z 0 ++ 1 :: rest).drop (z + 1) =
      ((List.replicate z 0 ++ 1 :: rest).drop z).drop 1 := by
    rw [List.drop_drop]
  rw [h2]
  have h3 : (List.replicate z 0 ++ 1 :: rest).drop z = 1 :: rest := by
    have := List.drop_left (List.replicate z 0) (1 :: rest)
    rwa [List.length_replicate] at this
  rw [h3]
  rfl

end RSA

/-- C5: under the length precondition (`len(encoded) = k ≥ 2h + 2`, and `k`
within MGF1's range), `_oaep_decode` succeeds and returns the bytes after the
separator if and only if all structural checks on the recovered data block
pass: `lHash' = hash(label)`, the first non-zero byte after the 32-byte hash
prefix is exactly `0x01`, and the leading byte of the encoded block is
`0x00`; moreover the leading-byte check runs last — an `invalidFirstByte`
failure implies every other structural check had already passed. -/
theorem c5_oaepDecode_characterization (H : HashFn) (encoded : List Nat)
    (k : Nat) (label : List Nat) (hlen : encoded.length = k) (h66 : 66 ≤ k)
    (hkb : k ≤ 2 ^ 32) :
    ∃ db, oaepRecoverDB H encoded k = .ok db ∧
      (∀ m, oaepDecode H encoded k label = .ok m ↔
        (H.f label = db.take 32 ∧ encoded.headI = 0 ∧
          ∃ z, db.drop 32 = List.replicate z 0 ++ 1 :: m)) ∧
      (oaepDecode H encoded k label = .error .invalidFirstByte →
        (H.f label = db.take 32 ∧
          ∃ z rest, db.drop 32 = List.replicate z 0 ++ 1 :: rest)) := by
  have hmask : k - 32 - 1 ≤ 2 ^ 32 * 32 := by
    have h37 : (2 : Nat) ^ 32 ≤ 2 ^ 32 * 32 := by norm_num
    omega
  obtain ⟨seedMask, hsm, _, _⟩ := mgf1_ok H (encoded.drop 33) 32 (by norm_num)
  obtain ⟨dbMask, hdm, _, _⟩ :=
    mgf1_ok H (xorBytes ((encoded.drop 1).take 32) seedMask) (k - 32 - 1) hmask
  set db := xorBytes (encoded.drop 33) dbMask with hdbdef
  have hrec : oaepRecoverDB H encoded k = .ok db := by
    rw [oaepRecoverDB]
    dsimp only
    rw [hsm]
    simp only [ebind_ok]
    rw [hdm]
    simp only [ebind_ok]
  have hguard : ¬(encoded.length ≠ k ∨ k < 2 * 32 + 2) := by
    push_neg
    exact ⟨hlen, by omega⟩
  have hdec : oaepDecode H encoded k label =
      (if H.f label ≠ db.take 32 then .error .labelMismatch
       else
         match findSep (db.drop 32) 32 with
         | .error e => .error e
         | .ok sep =>
           if encoded.headI ≠ 0 then .error .invalidFirstByte
           else .ok (db.drop (sep + 1))) := by
    rw [oaepDecode, if_neg hguard, hrec]
    simp only [ebind_ok]
  refine ⟨db, hrec, ?_, ?_⟩
  · intro m
    constructor
    · intro hok
      rw [hdec] at hok
      by_cases hl : H.f label ≠ db.take 32
      · rw [if_pos hl] at hok; cases hok
      · rw [if_neg hl] at hok
        push_neg at hl
        cases hf : findSep (db.drop 32) 32 with
        | error e => rw [hf] at hok; cases hok
        | ok sep =>
          rw [hf] at hok
          dsimp only at hok
          by_cases hy : encoded.headI ≠ 0
          · rw [if_pos hy] at hok; cases hok
          · rw [if_neg hy] at hok
            push_neg at hy
            obtain ⟨z, rest, hdecomp, hsep⟩ := findSep_ok_inv _ _ _ hf
            have hm : m = rest := by
              have hdrop := drop_after_sep db z rest hdecomp
              injection hok with hinj
              rw [hsep] at hinj
              rw [← hinj, hdrop]
            exact ⟨hl, hy, z, hm ▸ hdecomp⟩
    · rintro ⟨hlab, hy, z, hdecomp⟩
      rw [hdec, if_neg (by rw [hlab]; simp)]
      have hsep : findSep (db.drop 32) 32 = .ok (32 + z) := by
        rw [hdecomp]
        exact findSep_ok_of z m 32
      rw [hsep]
      dsimp only
      rw [if_neg (by rw [hy]; simp)]
      have hdrop := drop_after_sep db z m hdecomp
      rw [hdrop]
  · intro herr
    rw [hdec] at herr
    by_cases hl : H.f label ≠ db.take 32
    · rw [if_pos hl] at herr
      injection herr with heq
      cases heq
    · rw [if_neg hl] at herr
      push_neg at hl
      cases hf : findSep (db.drop 32) 32 with
      | error e =>
        rw [hf] at herr
        dsimp only at herr
        injection herr with heq
        rcases findSep_error_types _ _ _ hf with h1 | h1 <;> rw [h1] at heq <;>
          cases heq
      | ok sep =>
        obtain ⟨z, rest, hdecomp, _⟩ := findSep_ok_inv _ _ _ hf
        exact ⟨hl, z, rest, hdecomp⟩

/-- C5 witness: a concrete 66-byte block at the minimal modulus length. -/
theorem c5_oaepDecode_characterization_witness :
    ((List.replicate 66 0 : List Nat).length = 66 ∧ (66 : Nat) ≤ 66 ∧
      (66 : Nat) ≤ 2 ^ 32) ∧
    (∃ db, oaepRecoverDB constHash (List.replicate 66 0) 66 = .ok db ∧
      (∀ m, oaepDecode constHash (List.replicate 66 0) 66 [] = .ok m ↔
        (constHash.f [] = db.take 32 ∧
          (List.replicate 66 0 : List Nat).headI = 0 ∧
          ∃ z, db.drop 32 = List.replicate z 0 ++ 1 :: m)) ∧
      (oaepDecode constHash (List.replicate 66 0) 66 [] =
          .error .invalidFirstByte →
        (constHash.f [] = db.take 32 ∧
          ∃ z rest, db.drop 32 = List.replicate z 0 ++ 1 :: rest))) :=
  ⟨⟨by simp, by norm_num, by norm_num⟩,
   c5_oaepDecode_characterization constHash (List.replicate 66 0) 66 []
     (by simp) (by norm_num) (by norm_num)⟩

/-! ## RSA exponentiation round trip (number theory) -/

namespace RSA

theorem rsa_fermat (p : Nat) (hp : p.Prime) (ed : Nat) (hed1 : 1 ≤ ed)
    (hmod : ed % (p - 1) = 1 % (p - 1)) (m : Nat) :
    m ^ ed ≡ m [MOD p] := by
  haveI : Fact p.Prime := ⟨hp⟩
  have hzmod : ((m ^ ed : Nat) : ZMod p) = (m : ZMod p) := by
    push_cast
    by_cases hz : (m : ZMod p) = 0
    · rw [hz, zero_pow (by omega : ed ≠ 0)]
    · have hdvd : (p - 1) ∣ (ed - 1) :=
        (Nat.modEq_iff_dvd' hed1).mp (Nat.ModEq.symm hmod)
      obtain ⟨c, hc⟩ := hdvd
      have hed : ed = (p - 1) * c + 1 := by omega
      rw [hed, pow_add, pow_mul, pow_one, ZMod.pow_card_sub_one_eq_one hz,
        one_pow, one_mul]
  exact (ZMod.natCast_eq_natCast_iff _ _ _).mp hzmod

theorem rsa_roundtrip_mod (p q e d : Nat) (hp : p.Prime) (hq : q.Prime)
    (hne : p ≠ q)
    (hed : e * d % ((p - 1) * (q - 1)) = 1 % ((p - 1) * (q - 1)))
    (m : Nat) (hm : m < p * q) :
    (m ^ e % (p * q)) ^ d % (p * q) = m := by
  have hphi : 2 ≤ (p - 1) * (q - 1) :=
    phi_two_le p q hp.two_le hq.two_le (Ne.symm hne)
  have hed1 : 1 ≤ e * d := by
    rcases Nat.eq_zero_or_pos (e * d) with h0 | h1
    · rw [h0, Nat.zero_mod, Nat.mod_eq_of_lt (by omega)] at hed
      omega
    · exact h1
  have hp1 : (p - 1) ∣ (p - 1) * (q - 1) := Dvd.intro _ rfl
  have hq1 : (q - 1) ∣ (p - 1) * (q - 1) := Dvd.intro_left _ rfl
  have hmodp : e * d ≡ 1 [MOD p - 1] := Nat.ModEq.of_dvd hp1 hed
  have hmodq : e * d ≡ 1 [MOD q - 1] := Nat.ModEq.of_dvd hq1 hed
  have h1 : m ^ (e * d) ≡ m [MOD p] := rsa_fermat p hp (e * d) hed1 hmodp m
  have h2 : m ^ (e * d) ≡ m [MOD q] := rsa_fermat q hq (e * d) hed1 hmodq m
  have hco : Nat.Coprime p q := (Nat.coprime_primes hp hq).mpr hne
  have h3 : m ^ (e * d) ≡ m [MOD p * q] :=
    (Nat.modEq_and_modEq_iff_modEq_mul hco).mp ⟨h1, h2⟩
  calc (m ^ e % (p * q)) ^ d % (p * q) = (m ^ e) ^ d % (p * q) := by
        conv_rhs => rw [Nat.pow_mod]
  _ = m ^ (e * d) % (p * q) := by rw [← pow_mul]
  _ = m % (p * q) := h3
  _ = m := Nat.mod_eq_of_lt hm

/-- Lower bound matching `k = ceil(bits(n)/8)`: an `n ≥ 1` fills its last
byte, i.e. `256^(k-1) ≤ n`. -/
theorem byteLen_lower (n : Nat) (hn : 1 ≤ n) : 256 ^ (byteLen n - 1) ≤ n := by
  have hs1 : 1 ≤ Nat.size n := by
    rcases Nat.eq_zero_or_pos (Nat.size n) with h0 | h1
    · rw [Nat.size_eq_zero] at h0; omega
    · exact h1
  have hlow : 2 ^ (Nat.size n - 1) ≤ n := Nat.lt_size.mp (by omega)
  have h8 := Nat.div_add_mod (Nat.size n + 7) 8
  have hm : (Nat.size n + 7) % 8 < 8 := Nat.mod_lt _ (by norm_num)
  have hk8 : 8 * (byteLen n - 1) ≤ Nat.size n - 1 := by
    unfold byteLen
    omega
  calc 256 ^ (byteLen n - 1) = 2 ^ (8 * (byteLen n - 1)) := by
        rw [show (256 : Nat) = 2 ^ 8 by norm_num, ← pow_mul]
  _ ≤ 2 ^ (Nat.size n - 1) := Nat.pow_le_pow_right (by norm_num) hk8
  _ ≤ n := hlow

/-- Upper bound matching `k = ceil(bits(n)/8)`: `n < 256^k`. -/
theorem byteLen_upper (n : Nat) : n < 256 ^ byteLen n := by
  have h8 := Nat.div_add_mod (Nat.size n + 7) 8
  have hm : (Nat.size n + 7) % 8 < 8 := Nat.mod_lt _ (by norm_num)
  have hsize : Nat.size n ≤ 8 * byteLen n := by
    unfold byteLen
    omega
  calc n < 2 ^ Nat.size n := Nat.lt_size_self n
  _ ≤ 2 ^ (8 * byteLen n) := Nat.pow_le_pow_right (by norm_num) hsize
  _ = 256 ^ byteLen n := by
      rw [show (256 : Nat) = 2 ^ 8 by norm_num, ← pow_mul]

end RSA

/-! ## OAEP round trip -/

namespace RSA

theorem oaep_roundtrip (H : HashFn) (seed msg : List Nat) (k : Nat)
    (hs : seed.length = 32) (hsb : ∀ x ∈ seed, x < 256)
    (hmb : ∀ x ∈ msg, x < 256) (hlen : msg.length + 66 ≤ k)
    (hkb : k - 32 - 1 ≤ 2 ^ 32 * 32) :
    ∃ em, oaepEncode H seed msg k [] = .ok em ∧ em.length = k ∧
      fromBytesBE em < 256 ^ (k - 1) ∧ (∀ x ∈ em, x < 256) ∧
      oaepDecode H em k [] = .ok msg := by
  obtain ⟨dbMask, hdm, hdmlen, hdmb⟩ := mgf1_ok H seed (k - 32 - 1) hkb
  obtain ⟨seedMask, hsm, hsmlen, hsmb⟩ :=
    mgf1_ok H (xorBytes (H.f [] ++ List.replicate (k - msg.length - 2 * 32 - 2) 0
      ++ [1] ++ msg) dbMask) 32 (by norm_num)
  have hguard : ¬((msg.length : Int) > (k : Int) - 2 * 32 - 2) := by omega
  have henc : oaepEncode H seed msg k [] =
      .ok (0 :: (xorBytes seed seedMask ++
        xorBytes (H.f [] ++ List.replicate (k - msg.length - 2 * 32 - 2) 0
          ++ [1] ++ msg) dbMask)) := by
    rw [oaepEncode, if_neg hguard]
    dsimp only
    rw [hdm]
    simp only [ebind_ok]
    rw [hsm]
    simp only [ebind_ok]
  set psLen := k - msg.length - 2 * 32 - 2 with hpsdef
  set db := H.f [] ++ List.replicate psLen 0 ++ [1] ++ msg with hdbdef
  set maskedDB := xorBytes db dbMask with hmdbdef
  set maskedSeed := xorBytes seed seedMask with hmsdef
  have hdblen : db.length = k - 33 := by
    rw [hdbdef]
    simp only [List.length_append, List.length_replicate, List.length_cons,
      List.length_nil, H.len_eq]
    omega
  have hdbbytes : ∀ x ∈ db, x < 256 := by
    intro x hx
    rw [hdbdef] at hx
    simp only [List.mem_append, List.mem_replicate, List.mem_singleton] at hx
    rcases hx with ((hx | hx) | hx) | hx
    · exact H.mem_lt [] x hx
    · omega
    · omega
    · exact hmb x hx
  have hmdblen : maskedDB.length = k - 33 := by
    rw [hmdbdef, xorBytes_length, hdblen, hdmlen]
    omega
  have hmslen : maskedSeed.length = 32 := by
    rw [hmsdef, xorBytes_length, hs, hsmlen]
    simp
  have hemlen : (0 :: (maskedSeed ++ maskedDB)).length = k := by
    simp only [List.length_cons, List.length_append, hmslen, hmdblen]
    omega
  have hembytes : ∀ x ∈ 0 :: (maskedSeed ++ maskedDB), x < 256 := by
    intro x hx
    simp only [List.mem_cons, List.mem_append] at hx
    rcases hx with hx | hx | hx
    · omega
    · exact xorBytes_mem_lt seed seedMask hsb hsmb x hx
    · exact xorBytes_mem_lt db dbMask hdbbytes hdmb x hx
  have hfrom : fromBytesBE (0 :: (maskedSeed ++ maskedDB)) < 256 ^ (k - 1) := by
    have h0 : fromBytesBE (0 :: (maskedSeed ++ maskedDB)) =
        fromBytesBE (maskedSeed ++ maskedDB) := by
      simp [fromBytesBE]
    rw [h0]
    have hlt := fromBytesBE_lt (maskedSeed ++ maskedDB) fun x hx => by
      simp only [List.mem_append] at hx
      rcases hx with hx | hx
      · exact xorBytes_mem_lt seed seedMask hsb hsmb x hx
      · exact xorBytes_mem_lt db dbMask hdbbytes hdmb x hx
    rw [List.length_append, hmslen, hmdblen] at hlt
    have harith : 32 + (k - 33) = k - 1 := by omega
    rwa [harith] at hlt
  have hdbdrop : db.drop 32 = List.replicate psLen 0 ++ 1 :: msg := by
    rw [hdbdef, List.append_assoc, List.append_assoc,
      List.drop_left' (H.len_eq [])]
    simp [List.singleton_append]
  have hdecode : oaepDecode H (0 :: (maskedSeed ++ maskedDB)) k [] = .ok msg := by
    have hguard2 : ¬((0 :: (maskedSeed ++ maskedDB)).length ≠ k ∨ k < 2 * 32 + 2) := by
      push_neg
      exact ⟨hemlen, by omega⟩
    rw [oaepDecode, if_neg hguard2]
    have hdrop33 : (0 :: (maskedSeed ++ maskedDB)).drop 33 = maskedDB := by
      show (maskedSeed ++ maskedDB).drop 32 = maskedDB
      exact List.drop_left' hmslen
    have htake32 : ((0 :: (maskedSeed ++ maskedDB)).drop 1).take 32 = maskedSeed := by
      show (maskedSeed ++ maskedDB).take 32 = maskedSeed
      exact List.take_left' hmslen
    have hrec : oaepRecoverDB H (0 :: (maskedSeed ++ maskedDB)) k = .ok db := by
      rw [oaepRecoverDB]
      dsimp only
      rw [hdrop33, hmdbdef, hsm]
      simp only [ebind_ok]
      rw [htake32]
      have hseedinv : xorBytes maskedSeed seedMask = seed := by
        rw [hmsdef]
        exact xorBytes_xorBytes_right seed seedMask (by rw [hs, hsmlen])
      rw [hseedinv, hdm]
      simp only [ebind_ok]
      have hdbinv : xorBytes maskedDB dbMask = db := by
        rw [hmdbdef]
        exact xorBytes_xorBytes_right db dbMask (by rw [hdblen, hdmlen]; omega)
      rw [hdbinv]
    rw [hrec]
    simp only [ebind_ok]
    have hlabel : H.f [] = db.take 32 := by
      rw [hdbdef, List.append_assoc, List.append_assoc,
        List.take_left' (H.len_eq [])]
    rw [if_neg (by simp [hlabel])]
    have hfs : findSep (db.drop 32) 32 = .ok (32 + psLen) := by
      rw [hdbdrop]
      exact findSep_ok_of psLen msg 32
    rw [hfs]
    dsimp only
    rw [if_neg (by simp)]
    have hmsg := drop_after_sep db psLen msg hdbdrop
    rw [hmsg]
  exact ⟨0 :: (maskedSeed ++ maskedDB), henc, hemlen, hfrom, hembytes, hdecode⟩

end RSA

/-! ## Block split lemmas and the block-level round trip -/

namespace RSA

theorem chunkList_join (sz : Nat) (hsz : sz ≠ 0) :
    ∀ fuel l, l.length ≤ fuel → (chunkList sz l).flatten = l := by
  intro fuel
  induction fuel with
  | zero =>
    intro l hl
    have : l = [] := List.length_eq_zero.mp (by omega)
    subst this
    simp [chunkList]
  | succ f ih =>
    intro l hl
    cases l with
    | nil => simp [chunkList]
    | cons x xs =>
      rw [chunkList, dif_neg hsz, List.flatten_cons]
      rw [ih ((x :: xs).drop sz) (by simp at hl ⊢; omega)]
      exact List.take_append_drop sz (x :: xs)

theorem chunkList_mem (sz : Nat) (hsz : sz ≠ 0) :
    ∀ fuel l, l.length ≤ fuel →
      ∀ c ∈ chunkList sz l, c.length ≤ sz ∧ ∀ x ∈ c, x ∈ l := by
  intro fuel
  induction fuel with
  | zero =>
    intro l hl c hc
    have : l = [] := List.length_eq_zero.mp (by omega)
    subst this
    simp [chunkList] at hc
  | succ f ih =>
    intro l hl c hc
    cases l with
    | nil => simp [chunkList] at hc
    | cons x xs =>
      rw [chunkList, dif_neg hsz] at hc
      rcases List.mem_cons.mp hc with hc | hc
      · subst hc
        refine ⟨by simp, fun y hy => List.take_subset _ _ hy⟩
      · obtain ⟨hclen, hcmem⟩ := ih ((x :: xs).drop sz) (by simp at hl ⊢; omega) c hc
        exact ⟨hclen, fun y hy => List.drop_subset _ _ (hcmem y hy)⟩

theorem chunkList_count_le (sz : Nat) (hsz : sz ≠ 0) :
    ∀ fuel l, l.length ≤ fuel → (chunkList sz l).length ≤ l.length := by
  intro fuel
  induction fuel with
  | zero =>
    intro l hl
    have : l = [] := List.length_eq_zero.mp (by omega)
    subst this
    simp [chunkList]
  | succ f ih =>
    intro l hl
    cases l with
    | nil => simp [chunkList]
    | cons x xs =>
      rw [chunkList, dif_neg hsz]
      have := ih ((x :: xs).drop sz) (by simp at hl ⊢; omega)
      simp only [List.length_cons, List.length_drop] at *
      omega

theorem blocks_roundtrip (H : HashFn) (seeds : Nat → List Nat)
    (p q d k : Nat) (hp : p.Prime) (hq : q.Prime) (hne : p ≠ q)
    (hed : 65537 * d % ((p - 1) * (q - 1)) = 1 % ((p - 1) * (q - 1)))
    (hseeds : ∀ i, (seeds i).length = 32 ∧ ∀ x ∈ seeds i, x < 256)
    (hk : k = byteLen (p * q)) (hk67 : 67 ≤ k) (hkb : k ≤ 2 ^ 32) :
    ∀ blocks i,
      (∀ bl ∈ blocks, bl.length + 66 ≤ k ∧ ∀ x ∈ bl, x < 256) →
      ∃ body, encryptBlocks H seeds 65537 (p * q) k blocks i = .ok body ∧
        body.length = k * blocks.length ∧
        decryptBlocks H d (p * q) k blocks.length body = .ok blocks.flatten := by
  have hn1 : 1 ≤ p * q :=
    Nat.one_le_iff_ne_zero.mpr (Nat.mul_ne_zero hp.pos.ne' hq.pos.ne')
  have hnk : p * q < 256 ^ k := by rw [hk]; exact byteLen_upper (p * q)
  have hlowk : 256 ^ (k - 1) ≤ p * q := by rw [hk]; exact byteLen_lower (p * q) hn1
  intro blocks
  induction blocks with
  | nil =>
    intro i _
    exact ⟨[], rfl, by simp, rfl⟩
  | cons bl rest ih =>
    intro i hblocks
    obtain ⟨hbl66, hblb⟩ := hblocks bl (by simp)
    obtain ⟨hslen, hsbytes⟩ := hseeds i
    have hkmask : k - 32 - 1 ≤ 2 ^ 32 * 32 := by
      have h37 : (2 : Nat) ^ 32 ≤ 2 ^ 32 * 32 := by norm_num
      omega
    obtain ⟨em, hem, hemlen, hemfrom, hembytes, hemdec⟩ :=
      oaep_roundtrip H (seeds i) bl k hslen hsbytes hblb hbl66 hkmask
    have hmn : fromBytesBE em < p * q := lt_of_lt_of_le hemfrom hlowk
    have hcn : fromBytesBE em ^ 65537 % (p * q) < p * q := Nat.mod_lt _ (by omega)
    have hck : fromBytesBE em ^ 65537 % (p * q) < 256 ^ k := lt_trans hcn hnk
    have htb : toBytesBE k (fromBytesBE em ^ 65537 % (p * q)) =
        .ok (natToBytesBE k (fromBytesBE em ^ 65537 % (p * q))) := by
      rw [toBytesBE, if_pos hck]
    obtain ⟨tail, htail, htaillen, htaildec⟩ :=
      ih (i + 1) (fun b hb => hblocks b (by simp [hb]))
    refine ⟨natToBytesBE k (fromBytesBE em ^ 65537 % (p * q)) ++ tail, ?_, ?_, ?_⟩
    · rw [encryptBlocks]
      rw [hem]
      simp only [ebind_ok]
      rw [htb]
      simp only [ebind_ok]
      rw [htail]
      simp only [ebind_ok]
    · rw [List.length_append, natToBytesBE_length, htaillen, List.length_cons,
        Nat.mul_succ]
      exact Nat.add_comm _ _
    · have hcblen : (natToBytesBE k (fromBytesBE em ^ 65537 % (p * q))).length = k :=
        natToBytesBE_length _ _
      rw [List.length_cons, decryptBlocks]
      rw [List.take_left' hcblen]
      rw [fromBytesBE_natToBytesBE k _ hck]
      rw [rsa_roundtrip_mod p q 65537 d hp hq hne hed (fromBytesBE em) hmn]
      have htbm : toBytesBE k (fromBytesBE em) =
          .ok (natToBytesBE k (fromBytesBE em)) := by
        rw [toBytesBE, if_pos (lt_trans hmn hnk)]
      rw [htbm]
      simp only [ebind_ok]
      have hback : natToBytesBE k (fromBytesBE em) = em := by
        have := natToBytesBE_fromBytesBE em hembytes
        rwa [hemlen] at this
      rw [hback, hemdec]
      simp only [ebind_ok]
      rw [List.drop_left' hcblen, htaildec]
      simp only [ebind_ok, List.flatten_cons]

end RSA

/-- C1 (amended): for every message `M` with `0 < len(M) ≤ 10000`, every
keypair `((65537, n), (d, n))` built from distinct primes `p, q` with
`n = p·q` and `65537·d ≡ 1 (mod (p-1)(q-1))`, and every choice of 32-byte
OAEP seeds, `decrypt(encrypt(M, pub), priv) = M` — provided the modulus
byte-length `k = ceil(bits(n)/8)` is at least 67 (`max_block_size ≥ 1`;
for smaller moduli the block split is empty or raises) and within MGF1's
mask limit. -/
theorem c1_roundtrip_amended (H : HashFn) (seeds : Nat → List Nat)
    (p q d : Nat) (M : List Nat)
    (hp : p.Prime) (hq : q.Prime) (hne : p ≠ q)
    (hed : 65537 * d % ((p - 1) * (q - 1)) = 1 % ((p - 1) * (q - 1)))
    (hM1 : 0 < M.length) (hM2 : M.length ≤ 10000) (hMb : ∀ x ∈ M, x < 256)
    (hseeds : ∀ i, (seeds i).length = 32 ∧ ∀ x ∈ seeds i, x < 256)
    (hk67 : 67 ≤ byteLen (p * q)) (hkb : byteLen (p * q) ≤ 2 ^ 32) :
    ∃ ct, encrypt H seeds M (65537, p * q) = .ok ct ∧
      decrypt H ct (d, p * q) = .ok M := by
  have hsz0 : byteLen (p * q) - 66 ≠ 0 := by omega
  have hszpos : (((byteLen (p * q) : Int)) - 2 * 32 - 2).toNat =
      byteLen (p * q) - 66 := by omega
  have hblprops : ∀ bl ∈ chunkList (byteLen (p * q) - 66) M,
      bl.length + 66 ≤ byteLen (p * q) ∧ ∀ x ∈ bl, x < 256 := by
    intro bl hbl
    obtain ⟨hl, hm⟩ :=
      chunkList_mem (byteLen (p * q) - 66) hsz0 M.length M le_rfl bl hbl
    exact ⟨by omega, fun x hx => hMb x (hm x hx)⟩
  obtain ⟨body, hbody, hbodylen, hbodydec⟩ :=
    blocks_roundtrip H seeds p q d (byteLen (p * q)) hp hq hne hed hseeds rfl
      hk67 hkb (chunkList (byteLen (p * q) - 66) M) 0 hblprops
  have hjoin : (chunkList (byteLen (p * q) - 66) M).flatten = M :=
    chunkList_join (byteLen (p * q) - 66) hsz0 M.length M le_rfl
  have hcount_le : (chunkList (byteLen (p * q) - 66) M).length ≤ M.length :=
    chunkList_count_le (byteLen (p * q) - 66) hsz0 M.length M le_rfl
  have hcount_lt : (chunkList (byteLen (p * q) - 66) M).length < 256 ^ 4 := by
    have h4 : (256 : Nat) ^ 4 = 4294967296 := by norm_num
    omega
  have hhdr : toBytesBE 4 (chunkList (byteLen (p * q) - 66) M).length =
      .ok (natToBytesBE 4 (chunkList (byteLen (p * q) - 66) M).length) := by
    rw [toBytesBE, if_pos hcount_lt]
  have hc1 : ¬(M.length = 0) := by omega
  have hc2 : ¬((byteLen (p * q) : Int) - 2 * 32 - 2 = 0) := by omega
  have hc3 : ¬((byteLen (p * q) : Int) - 2 * 32 - 2 < 0) := by omega
  have henc : encrypt H seeds M (65537, p * q) =
      .ok (natToBytesBE 4 (chunkList (byteLen (p * q) - 66) M).length ++ body) := by
    rw [encrypt]
    dsimp only
    rw [if_neg hc1, if_neg hc2, if_neg hc3, hszpos]
    rw [hbody]
    simp only [ebind_ok]
    rw [hhdr]
    simp only [ebind_ok]
  have hhdrlen : (natToBytesBE 4 (chunkList (byteLen (p * q) - 66) M).length).length = 4 :=
    natToBytesBE_length _ _
  have hctlen :
      (natToBytesBE 4 (chunkList (byteLen (p * q) - 66) M).length ++ body).length =
      4 + byteLen (p * q) * (chunkList (byteLen (p * q) - 66) M).length := by
    rw [List.length_append, hhdrlen, hbodylen]
  have hdec : decrypt H
      (natToBytesBE 4 (chunkList (byteLen (p * q) - 66) M).length ++ body)
      (d, p * q) = .ok M := by
    rw [decrypt]
    dsimp only
    rw [if_neg (by rw [hctlen]; omega)]
    rw [List.take_left' hhdrlen, List.drop_left' hhdrlen]
    rw [fromBytesBE_natToBytesBE 4 _ hcount_lt]
    rw [if_neg (by rw [hbodylen, Nat.mul_comm]; simp)]
    rw [hbodydec, hjoin]
  exact ⟨_, henc, hdec⟩

/-- C1 counterexample: with the keypair from the distinct primes `11` and
`13` (`n = 143`, `d = e⁻¹ mod 120 = 113`) and the 1-byte message `[77]`,
the round trip fails: `k = 1` makes `max_block_size` negative, the block
split is empty, `encrypt` returns the 0-block ciphertext, and `decrypt`
returns the empty message instead of `[77]`. -/
theorem c1_small_modulus_fails :
    (Nat.Prime 11 ∧ Nat.Prime 13 ∧ (11 : Nat) ≠ 13 ∧ 11 * 13 = 143 ∧
      65537 * 113 % ((11 - 1) * (13 - 1)) = 1 % ((11 - 1) * (13 - 1)) ∧
      0 < ([77] : List Nat).length ∧ ([77] : List Nat).length ≤ 10000) ∧
    encrypt constHash (fun _ => List.replicate 32 0) [77] (65537, 143) =
      .ok [0, 0, 0, 0] ∧
    decrypt constHash [0, 0, 0, 0] (113, 143) = .ok [] ∧
    ([] : List Nat) ≠ [77] := by
  refine ⟨⟨by norm_num, by norm_num, by norm_num, by norm_num, by norm_num,
    by norm_num, by norm_num⟩, ?_, ?_, by decide⟩
  · unfold encrypt
    dsimp only
    rw [byteLen_143]
    rfl
  · unfold decrypt
    dsimp only
    rw [byteLen_143]
    rfl

/-- The private exponent matching `e = 65537` for the witness keypair
`p = 257`, `q = mersenne 521` (verified below by the modular equation). -/
def witnessD : Nat :=
  1316331681318442773951799918389356653195752982572838062863600608625319088582491260102185765770635160569080178361131565117218914580207075758694390917257916022273

set_option exponentiation.threshold 600 in
theorem mersenne_521_val : mersenne 521 = 6864797660130609714981900799081393217269435300143305409394463459185543183397656052122559640661454554977296311391480858037121987999716643812574028291115057151 := by
  rw [mersenne]
  norm_num

set_option exponentiation.threshold 600 in
theorem witness_byteLen : byteLen (257 * mersenne 521) = 67 := by
  have h1 : 2 ^ 529 ≤ 257 * mersenne 521 := by
    rw [mersenne_521_val]
    norm_num
  have h2 : 257 * mersenne 521 < 2 ^ (529 + 1) := by
    rw [mersenne_521_val]
    norm_num
  rw [byteLen, size_eq_of_bounds h1 h2]

/-- C1 witness: a concrete 530-bit keypair — `p = 257`,
`q = 2^521 - 1` (prime by the Lucas–Lehmer test) — and the message `[1]`. -/
theorem c1_roundtrip_amended_witness :
    Nat.Prime 257 ∧ (mersenne 521).Prime ∧ (257 : Nat) ≠ mersenne 521 ∧
    65537 * witnessD % ((257 - 1) * (mersenne 521 - 1)) =
      1 % ((257 - 1) * (mersenne 521 - 1)) ∧
    0 < ([1] : List Nat).length ∧ ([1] : List Nat).length ≤ 10000 ∧
    67 ≤ byteLen (257 * mersenne 521) ∧ byteLen (257 * mersenne 521) ≤ 2 ^ 32 ∧
    (∃ ct, encrypt constHash (fun _ => List.replicate 32 0) [1]
        (65537, 257 * mersenne 521) = .ok ct ∧
      decrypt constHash ct (witnessD, 257 * mersenne 521) = .ok [1]) := by
  have hp : Nat.Prime 257 := by norm_num
  have hq : (mersenne 521).Prime :=
    lucas_lehmer_sufficiency 521 (by norm_num) (by norm_num)
  have hne : (257 : Nat) ≠ mersenne 521 := by
    rw [mersenne_521_val]
    norm_num
  have hed : 65537 * witnessD % ((257 - 1) * (mersenne 521 - 1)) =
      1 % ((257 - 1) * (mersenne 521 - 1)) := by
    rw [mersenne_521_val, witnessD]
  refine ⟨hp, hq, hne, hed, by norm_num, by norm_num,
    by rw [witness_byteLen], by rw [witness_byteLen]; norm_num, ?_⟩
  exact c1_roundtrip_amended constHash (fun _ => List.replicate 32 0)
    257 (mersenne 521) witnessD [1] hp hq hne hed (by norm_num) (by norm_num)
    (by decide)
    (fun i => ⟨by simp, fun x hx => by
      have := List.eq_of_mem_replicate hx
      omega⟩)
    (by rw [witness_byteLen]) (by rw [witness_byteLen]; norm_num)
